import Mathlib

/-!
Verification of the multi-strategy signal aggregation and risk-gated order
execution engine of the bit_auto_v2 trading system.

The repository ships the engine's design documents (strategy-logic document
with concrete pseudocode for position sizing, stop management, regime
selection and scaled profit exits), its configuration
(`trading_strategies.json`, `trading_config.json`) and the dashboard
JavaScript.  The aggregation / risk-gate pipeline itself is specified but not
shipped; those parts are modelled here from the specification, while every
definition that has a concrete counterpart in the repository (the
position-sizing formula, `select_strategy_by_market`, `update_stop`, the
scaled-exit table, `calculateNextTradeTime`) is embedded directly from that
source.  Signal strengths, weights, prices and scores are modelled as
rational numbers.
-/

namespace BitAuto


/-- Action a signal recommends: buy, sell or hold. -/
inductive Action where
  | buy
  | sell
  | hold
deriving DecidableEq, Repr

/-- A single strategy's directional recommendation with confidence. -/
structure Signal where
  strategy_id : String
  action : Action
  strength : ℚ
deriving DecidableEq, Repr

/-- Modelled from the spec: for one action class, the weighted score is
Σ(strategy_weight × signal_strength) over the signals voting that action. -/
def weightedScore (weights : String → ℚ) (a : Action) : List Signal → ℚ
  | [] => 0
  | s :: rest =>
      (if s.action = a then weights s.strategy_id * s.strength else 0)
        + weightedScore weights a rest

/-- Modelled from the spec: total weighted score across all action classes. -/
def totalScore (weights : String → ℚ) (signals : List Signal) : ℚ :=
  weightedScore weights Action.buy signals
    + weightedScore weights Action.sell signals
    + weightedScore weights Action.hold signals

/-- Modelled from the spec: the winning action class is the one with the
strictly highest weighted score; ties resolve to hold. -/
def argmaxAction (weights : String → ℚ) (signals : List Signal) : Action :=
  if weightedScore weights Action.buy signals > weightedScore weights Action.sell signals
      ∧ weightedScore weights Action.buy signals > weightedScore weights Action.hold signals
  then Action.buy
  else if weightedScore weights Action.sell signals > weightedScore weights Action.buy signals
      ∧ weightedScore weights Action.sell signals > weightedScore weights Action.hold signals
  then Action.sell
  else Action.hold

/-- The aggregated, weighted decision across all active strategies for one
symbol in one cycle. -/
structure ConsolidatedSignal where
  action : Action
  confidence : ℚ
deriving DecidableEq, Repr

/-- Number of signals voting a given action class. -/
def voteCount (a : Action) : List Signal → ℕ
  | [] => 0
  | s :: rest => (if s.action = a then 1 else 0) + voteCount a rest

/-- Modelled from the spec: the number of strategies voting the minority
action — the direction opposite the winning class; a hold consensus has no
directional conflict. -/
def conflictingVotes (weights : String → ℚ) (signals : List Signal) : ℕ :=
  match argmaxAction weights signals with
  | Action.buy => voteCount Action.sell signals
  | Action.sell => voteCount Action.buy signals
  | Action.hold => 0

/-- Modelled from the spec: the `max_conflicting_signals` rule (shipped cap
2) — when the minority vote count exceeds the cap, confidence is penalized
proportionally, scaled by cap/minority; it is left unchanged otherwise. -/
def conflictPenalty (maxConflicting conflicting : ℕ) : ℚ :=
  if conflicting ≤ maxConflicting then 1
  else (maxConflicting : ℚ) / (conflicting : ℚ)

/-- Modelled from the spec: `SignalAggregator.aggregate` computes the
weighted score of each action class, picks the strictly winning class (ties
to hold), keeps it only when its score exceeds `min_agreement_threshold`
(default 0.6) of the total weighted score — otherwise the result is forced to
hold — and reports as confidence the winning class's weighted score
normalized by the total, reduced by the proportional `max_conflicting_signals`
penalty when the minority vote count exceeds the cap. -/
def aggregate (weights : String → ℚ) (minAgreement : ℚ) (maxConflicting : ℕ)
    (signals : List Signal) : ConsolidatedSignal :=
  { action :=
      if weightedScore weights (argmaxAction weights signals) signals
          > minAgreement * totalScore weights signals
      then argmaxAction weights signals else Action.hold
    confidence :=
      (if totalScore weights signals = 0 then 0
       else weightedScore weights (argmaxAction weights signals) signals
         / totalScore weights signals)
        * conflictPenalty maxConflicting (conflictingVotes weights signals) }

/-- A concrete input for the aggregator theorems: three signals, weights from
the shipped configuration, threshold 0.6. -/
def demoSignals : List Signal :=
  [⟨"h1", Action.buy, 4/5⟩, ⟨"h4", Action.buy, 3/5⟩, ⟨"d1", Action.sell, 1/2⟩]

/-- Weight map from the shipped configuration (h1 0.4, h4 0.3, d1 0.3). -/
def demoWeights : String → ℚ :=
  fun id => if id = "h1" then 2/5 else if id = "h4" then 3/10 else
    if id = "d1" then 3/10 else 0

/-- Signals for the minority-penalty counterexample: two buy voters of
combined weighted score 2/5 against three sell voters of combined weighted
score 3/50. -/
def cxSignals : List Signal :=
  [⟨"a", Action.buy, 1⟩, ⟨"b", Action.buy, 1⟩,
   ⟨"c", Action.sell, 1/10⟩, ⟨"d", Action.sell, 1/10⟩, ⟨"e", Action.sell, 1/10⟩]

/-- Uniform weight map for the minority-penalty counterexample. -/
def cxWeights : String → ℚ := fun _ => 1/5

/-- Reasons RiskGate can reject a consolidated signal, in check order. -/
inductive RejectReason where
  | SystemDisabled
  | DailyLossLimitReached
  | Cooldown
  | ExposureCapExceeded
  | CorrelationCapExceeded
deriving DecidableEq, Repr

/-- A risk-approved instruction to place an order. -/
structure OrderIntent where
  action : Action
  amount : ℚ
deriving DecidableEq, Repr

/-- Outcome of RiskGate.authorize. -/
inductive AuthResult where
  | approved (intent : OrderIntent)
  | rejected (reason : RejectReason)
deriving DecidableEq, Repr

/-- External configuration read by RiskGate each cycle.  The daily loss limit
is the (negative) bound on the daily loss accumulator; the shipped
configuration uses -50,000 KRW. -/
structure RiskConfig where
  system_enabled : Bool
  trading_enabled : Bool
  daily_loss_limit : ℚ
  min_trade_amount : ℚ
deriving Repr

/-- Running risk counters plus the trailing per-strategy statistics used by
the position-sizing formula.  `daily_loss` is negative while losing. -/
structure RiskState where
  daily_loss : ℚ
  cooldown_active : Bool
  open_positions : Nat
  max_positions : Nat
  correlated_open : Bool
  win_rate : ℚ
  avg_win : ℚ
  avg_loss : ℚ
  base_volatility : ℚ
  current_volatility : ℚ
  correlation_penalty : ℚ
  account_balance : ℚ
deriving Repr

/-- Embedded from `calculate_position_size` in the strategy-logic document:
quarter-Kelly fraction `kelly_f × 0.25` with
`kelly_f = (win_rate × avg_win − (1 − win_rate) × avg_loss) / avg_win`,
scaled by `base_volatility / current_volatility` and by the correlation
penalty, then clamped with `min(·, balance × 10%)` followed by
`max(·, min_trade_amount)`. -/
def calculate_position_size (st : RiskState) (min_trade_amount : ℚ) : ℚ :=
  let kelly_f := (st.win_rate * st.avg_win - (1 - st.win_rate) * st.avg_loss) / st.avg_win
  let conservative_kelly := kelly_f * (25/100)
  let vol_adjustment := st.base_volatility / st.current_volatility
  let position := st.account_balance * conservative_kelly * vol_adjustment
    * st.correlation_penalty
  max (min position (st.account_balance * (10/100))) min_trade_amount

/-- Modelled from the spec: `RiskGate.authorize` runs its checks in order
with short-circuit on the first failure: enabled flags, daily loss limit,
cooldown, exposure cap, correlation cap; an authorized intent carries the
computed position size. -/
def authorize (cfg : RiskConfig) (st : RiskState) (sig : ConsolidatedSignal) :
    AuthResult :=
  if ¬ (cfg.system_enabled = true ∧ cfg.trading_enabled = true) then
    AuthResult.rejected RejectReason.SystemDisabled
  else if st.daily_loss ≤ cfg.daily_loss_limit then
    AuthResult.rejected RejectReason.DailyLossLimitReached
  else if st.cooldown_active then
    AuthResult.rejected RejectReason.Cooldown
  else if st.max_positions ≤ st.open_positions then
    AuthResult.rejected RejectReason.ExposureCapExceeded
  else if st.correlated_open then
    AuthResult.rejected RejectReason.CorrelationCapExceeded
  else
    AuthResult.approved ⟨sig.action, calculate_position_size st cfg.min_trade_amount⟩

/-- Modelled from the spec: the aggregation-boundary filter — a
ConsolidatedSignal with confidence below `min_signal_strength` is dropped and
never forwarded to RiskGate. -/
def forwardToRiskGate (minStrength : ℚ) (c : ConsolidatedSignal) :
    Option ConsolidatedSignal :=
  if c.confidence < minStrength then none else some c

/-- Modelled from the spec: the evaluation cycle invokes RiskGate.authorize
only on consolidated signals that pass the aggregation-boundary filter. -/
def cycleRiskDecision (minStrength : ℚ) (cfg : RiskConfig) (st : RiskState)
    (c : ConsolidatedSignal) : Option AuthResult :=
  (forwardToRiskGate minStrength c).map (authorize cfg st)

/-- Shipped risk configuration: enabled, daily loss limit -50,000 KRW. -/
def demoConfig : RiskConfig := ⟨true, true, -50000, 5000⟩

/-- A RiskState whose daily loss accumulator has breached the limit. -/
def demoBreachedState : RiskState :=
  ⟨-50001, false, 0, 3, false, 1/2, 2, 1, 1/100, 2/100, 1, 1000000⟩

/-- A low-confidence consolidated signal (0.65 < 0.7). -/
def demoWeakSignal : ConsolidatedSignal := ⟨Action.buy, 13/20⟩

/-- Modelled from the spec: one sequential RiskGate step within a trading
day — an approved intent results in a trade whose realized PnL is added to
the daily loss accumulator; a rejection leaves RiskState unchanged.  The
daily reset happens only at the day boundary, outside this fold. -/
def dayStep (cfg : RiskConfig) (st : RiskState) (ev : ConsolidatedSignal × ℚ) :
    RiskState :=
  match authorize cfg st ev.1 with
  | AuthResult.approved _ => { st with daily_loss := st.daily_loss + ev.2 }
  | AuthResult.rejected _ => st

/-- Trailing per-strategy performance statistics kept by PerformanceTracker. -/
structure StratPerf where
  consecutive_losses : Nat
  drawdown : ℚ
  trades : Nat
  wins : Nat
deriving DecidableEq, Repr

/-- Auto-disable conditions from `trading_strategies.json`
(`auto_disable_conditions`: consecutive_losses 5, drawdown_threshold 0.12,
win_rate_below 0.35) with the 30-trade minimum sample
(`min_trades_for_evaluation`). -/
def auto_disable_breach (p : StratPerf) : Bool :=
  decide (5 ≤ p.consecutive_losses) || decide ((12/100 : ℚ) < p.drawdown)
    || (decide (30 ≤ p.trades)
        && decide ((p.wins : ℚ) / (p.trades : ℚ) < 35/100))

/-- Per-strategy per-day exclusion state read by SignalAggregator at the
start of every cycle. -/
structure StrategyDayState where
  excluded : Bool
  perf : StratPerf
deriving DecidableEq, Repr

/-- Modelled from the spec: at each cycle boundary the auto-disable flag is
derived from the strategy's performance as of the previous cycle; once set,
the exclusion persists for the rest of the trading day while the performance
statistics keep updating. -/
def cycleUpdate (s : StrategyDayState) (newPerf : StratPerf) :
    StrategyDayState :=
  { excluded := s.excluded || auto_disable_breach s.perf, perf := newPerf }

/-- Modelled from the spec: the daily reset re-includes every strategy. -/
def dailyReset (p : StratPerf) : StrategyDayState :=
  { excluded := false, perf := p }

/-- Performance record with exactly five consecutive losses. -/
def demoPerf : StratPerf := ⟨5, 1/100, 12, 6⟩

/-- Inputs to the EMA-cross evaluator for one cycle: entry-timeframe fast and
slow EMA, current price, higher-timeframe filter EMA, current volume and its
10-period average. -/
structure EmaCrossInput where
  fast_ema : ℚ
  slow_ema : ℚ
  price : ℚ
  filter_ema : ℚ
  volume : ℚ
  avg_volume_10 : ℚ
deriving DecidableEq, Repr

/-- Modelled from the spec: the EMA-cross evaluator (strategy h1).  Buy on a
golden cross (fast EMA strictly above slow EMA) with price above the
higher-timeframe filter EMA and volume above 1.5× its 10-period average;
symmetrically sell on a death cross with price below the filter; otherwise —
in particular whenever the fast EMA equals the slow EMA — hold with strength
0.  Strength is the normalized EMA distance, capped at 1. -/
def ema_cross_evaluate (i : EmaCrossInput) : Signal :=
  if i.fast_ema > i.slow_ema ∧ i.price > i.filter_ema
      ∧ i.volume > (3/2) * i.avg_volume_10 then
    ⟨"h1", Action.buy, min 1 ((i.fast_ema - i.slow_ema) / i.slow_ema)⟩
  else if i.fast_ema < i.slow_ema ∧ i.price < i.filter_ema
      ∧ i.volume > (3/2) * i.avg_volume_10 then
    ⟨"h1", Action.sell, min 1 ((i.slow_ema - i.fast_ema) / i.slow_ema)⟩
  else ⟨"h1", Action.hold, 0⟩

/-- A bar where the golden cross fires with all confirmations. -/
def demoEmaInput : EmaCrossInput := ⟨105, 100, 5000, 4900, 200, 100⟩

/-- Embedded from `select_strategy_by_market` in the strategy-logic document
(D8, ADX trend-strength meta strategy): ADX above 30 selects the
trend-following strategies, ADX below 20 the range-bound mean-reversion
strategies, anything in between the momentum strategies. -/
def select_strategy_by_market (adx_value : ℚ) : List String :=
  if adx_value > 30 then ["golden_cross", "ema_cross", "ichimoku"]
  else if adx_value < 20 then ["bollinger_bands", "pivot_points", "rsi_oversold"]
  else ["macd", "vwap", "flag_pattern"]

/-- Modelled from the spec: SignalAggregator reads the regime selection
before weighting — only signals from selected strategies enter the weighted
scores. -/
def aggregateWithSelection (sel : List String) (weights : String → ℚ)
    (minAgreement : ℚ) (maxConflicting : ℕ) (signals : List Signal) :
    ConsolidatedSignal :=
  aggregate weights minAgreement maxConflicting
    (signals.filter (fun s => sel.contains s.strategy_id))

/-- Parameters of the stop manager, embedded from `AdvancedStopLoss` in the
strategy document: 0.5% fixed initial stop, trailing activation at 0.3%
unrealized gain, 0.2% trailing distance. -/
structure AdvancedStopLoss where
  initial_stop : ℚ
  trailing_start : ℚ
  trailing_distance : ℚ
deriving DecidableEq, Repr

/-- Default stop parameters from the strategy document. -/
def defaultStopParams : AdvancedStopLoss := ⟨5/1000, 3/1000, 2/1000⟩

/-- Embedded from `AdvancedStopLoss.update_stop`: while the current price
exceeds the entry by the activation threshold the stop is the highest price
minus the trailing distance, otherwise it is the fixed initial stop below the
entry. -/
def update_stop (c : AdvancedStopLoss)
    (entry_price current_price highest_price : ℚ) : ℚ :=
  if current_price > entry_price * (1 + c.trailing_start) then
    highest_price * (1 - c.trailing_distance)
  else
    entry_price * (1 - c.initial_stop)

/-- Scaled profit-exit table embedded from the strategy document: exit 30% of
the position at 1.5R, a further 30% at 2.5R, the remaining 40% at 4.0R. -/
def SCALED_EXITS : List (ℚ × ℚ) := [(3/2, 30/100), (5/2, 30/100), (4, 40/100)]

/-- Immutable record of one (partial) exit fill. -/
structure Trade where
  exit_quantity : ℚ
  r_level : ℚ
deriving DecidableEq, Repr

/-- An open position tracked by ExecutionManager: remaining quantity, entry
quantity, number of exit levels already fired, open flag. -/
structure Position where
  quantity : ℚ
  entry_quantity : ℚ
  levels_taken : Nat
  is_open : Bool
deriving DecidableEq, Repr

/-- Modelled from the spec: per-cycle scaled profit taking — every
not-yet-fired level of the exit table whose R-multiple target is reached
fires; each fired level produces exactly one Trade for its percentage of the
entry quantity and reduces the remaining quantity; the position is closed
exactly when the remaining quantity reaches zero. -/
def takeScaledExits (p : Position) (r : ℚ) : Position × List Trade :=
  let fired := (SCALED_EXITS.drop p.levels_taken).takeWhile (fun lv => lv.1 ≤ r)
  let trades := fired.map (fun lv => ⟨lv.2 * p.entry_quantity, lv.1⟩)
  let q' := p.quantity - (trades.map Trade.exit_quantity).sum
  (⟨q', p.entry_quantity, p.levels_taken + fired.length, decide (q' ≠ 0)⟩, trades)

/-- A freshly opened position of quantity q with no exits taken. -/
def freshPosition (q : ℚ) : Position := ⟨q, q, 0, true⟩

/-- Embedded from the fallback loop of `calculateNextTradeTime` in
dashboard.js: starting from a candidate time, keep adding one interval while
the candidate has not passed `now`.  Times are in milliseconds. -/
def nextCycleTime (now p t : ℤ) : ℤ :=
  if _h : 0 < p ∧ t ≤ now then nextCycleTime now p (t + p) else t
termination_by (now + p - t).toNat
decreasing_by
  simp_wf
  omega

/-- Embedded from `calculateNextTradeTime` in dashboard.js: the local
fallback computation — one interval after the stored last execution time,
advanced by whole intervals until it passes `now`; with no stored last
execution, `now` plus one interval. -/
def fallbackNextTime (lastExec : Option ℤ) (now m : ℤ) : ℤ :=
  match lastExec with
  | some l => nextCycleTime now (m * 60000) (l + m * 60000)
  | none => now + m * 60000

/-- Embedded from `calculateNextTradeTime` in dashboard.js: the
server-provided next-execution time is returned unchanged when it lies
strictly in the future, otherwise the local fallback is used. -/
def calculateNextTradeTime (serverNext lastExec : Option ℤ) (now m : ℤ) : ℤ :=
  match serverNext with
  | some t => if now < t then t else fallbackNextTime lastExec now m
  | none => fallbackNextTime lastExec now m

theorem weightedScore_nonneg (weights : String → ℚ) (a : Action)
    (signals : List Signal)
    (hw : ∀ s ∈ signals, 0 ≤ weights s.strategy_id)
    (hs : ∀ s ∈ signals, 0 ≤ s.strength) :
    0 ≤ weightedScore weights a signals := by
  induction signals with
  | nil => simp [weightedScore]
  | cons s rest ih =>
      have h1 : 0 ≤ weights s.strategy_id := hw s (List.mem_cons_self s rest)
      have h2 : 0 ≤ s.strength := hs s (List.mem_cons_self s rest)
      have hrest : 0 ≤ weightedScore weights a rest :=
        ih (fun t ht => hw t (List.mem_cons_of_mem s ht))
          (fun t ht => hs t (List.mem_cons_of_mem s ht))
      by_cases hc : s.action = a
      · simpa [weightedScore, hc] using add_nonneg (mul_nonneg h1 h2) hrest
      · simpa [weightedScore, hc] using hrest

theorem weightedScore_le_total (weights : String → ℚ) (a : Action)
    (signals : List Signal)
    (hw : ∀ s ∈ signals, 0 ≤ weights s.strategy_id)
    (hs : ∀ s ∈ signals, 0 ≤ s.strength) :
    weightedScore weights a signals ≤ totalScore weights signals := by
  have hb := weightedScore_nonneg weights Action.buy signals hw hs
  have hsl := weightedScore_nonneg weights Action.sell signals hw hs
  have hh := weightedScore_nonneg weights Action.hold signals hw hs
  cases a <;> simp [totalScore] <;> nlinarith

theorem conflictPenalty_nonneg (mc c : ℕ) : 0 ≤ conflictPenalty mc c := by
  unfold conflictPenalty
  split_ifs
  · norm_num
  · positivity

theorem conflictPenalty_le_one (mc c : ℕ) : conflictPenalty mc c ≤ 1 := by
  unfold conflictPenalty
  split_ifs with h
  · norm_num
  · push_neg at h
    have hc : (0:ℚ) < (c:ℚ) := by
      exact_mod_cast Nat.lt_of_le_of_lt (Nat.zero_le mc) h
    rw [div_le_one hc]
    exact_mod_cast h.le

/-- C1 (amended): for every set of Signals with nonnegative strengths and
every nonnegative strategy-weight map, `aggregate` deterministically returns
a ConsolidatedSignal whose action is the argmax of the per-action weighted
scores Σ(strategy_weight × signal_strength) — a strict winner above the
`min_agreement_threshold` share of the total weighted score is returned, a
non-hold output is always such a winner, ties resolve to hold and a
below-threshold winner is forced to hold; the output confidence is the
winning class's weighted score normalized to [0,1] whenever the minority vote
count is within `max_conflicting_signals`, and is that normalized score
proportionally reduced by the conflict penalty otherwise. -/
theorem C1_signal_aggregator_amended (weights : String → ℚ) (θ : ℚ)
    (mc : ℕ) (signals : List Signal)
    (hw : ∀ s ∈ signals, 0 ≤ weights s.strategy_id)
    (hs : ∀ s ∈ signals, 0 ≤ s.strength) :
    (∀ a, (∀ b, b ≠ a → weightedScore weights b signals
            < weightedScore weights a signals) →
        θ * totalScore weights signals < weightedScore weights a signals →
        (aggregate weights θ mc signals).action = a)
      ∧ ((aggregate weights θ mc signals).action ≠ Action.hold →
          (∀ a, a ≠ (aggregate weights θ mc signals).action →
              weightedScore weights a signals
                < weightedScore weights
                    (aggregate weights θ mc signals).action signals)
            ∧ θ * totalScore weights signals
                < weightedScore weights
                    (aggregate weights θ mc signals).action signals)
      ∧ (weightedScore weights Action.buy signals
            = weightedScore weights Action.sell signals →
          (aggregate weights θ mc signals).action = Action.hold)
      ∧ (weightedScore weights (argmaxAction weights signals) signals
            ≤ θ * totalScore weights signals →
          (aggregate weights θ mc signals).action = Action.hold)
      ∧ 0 ≤ (aggregate weights θ mc signals).confidence
      ∧ (aggregate weights θ mc signals).confidence ≤ 1
      ∧ (totalScore weights signals ≠ 0 →
          (aggregate weights θ mc signals).confidence
            = weightedScore weights (argmaxAction weights signals) signals
                / totalScore weights signals
              * conflictPenalty mc (conflictingVotes weights signals))
      ∧ (totalScore weights signals ≠ 0 →
          conflictingVotes weights signals ≤ mc →
          (aggregate weights θ mc signals).confidence
            = weightedScore weights (argmaxAction weights signals) signals
                / totalScore weights signals) := by
  classical
  have hnonneg : ∀ a, 0 ≤ weightedScore weights a signals :=
    fun a => weightedScore_nonneg weights a signals hw hs
  have hle : ∀ a, weightedScore weights a signals ≤ totalScore weights signals :=
    fun a => weightedScore_le_total weights a signals hw hs
  have htot : 0 ≤ totalScore weights signals := by
    have := hnonneg Action.buy
    have := hnonneg Action.sell
    have := hnonneg Action.hold
    simp only [totalScore]
    positivity
  have hpen0 : 0 ≤ conflictPenalty mc (conflictingVotes weights signals) :=
    conflictPenalty_nonneg mc (conflictingVotes weights signals)
  have hpen1 : conflictPenalty mc (conflictingVotes weights signals) ≤ 1 :=
    conflictPenalty_le_one mc (conflictingVotes weights signals)
  refine ⟨?_, ?_, ?_, ?_, ?_, ?_, ?_, ?_⟩
  · intro a ha hthr
    have hwin : argmaxAction weights signals = a := by
      cases a with
      | buy =>
          have h1 := ha Action.sell (by simp)
          have h2 := ha Action.hold (by simp)
          unfold argmaxAction
          rw [if_pos ⟨h1, h2⟩]
      | sell =>
          have h1 := ha Action.buy (by simp)
          have h2 := ha Action.hold (by simp)
          have hn : ¬ (weightedScore weights Action.buy signals
              > weightedScore weights Action.sell signals
              ∧ weightedScore weights Action.buy signals
                > weightedScore weights Action.hold signals) :=
            fun hc => absurd hc.1 (not_lt.mpr h1.le)
          unfold argmaxAction
          rw [if_neg hn, if_pos ⟨h1, h2⟩]
      | hold =>
          have h1 := ha Action.buy (by simp)
          have h2 := ha Action.sell (by simp)
          have hn1 : ¬ (weightedScore weights Action.buy signals
              > weightedScore weights Action.sell signals
              ∧ weightedScore weights Action.buy signals
                > weightedScore weights Action.hold signals) :=
            fun hc => absurd hc.2 (not_lt.mpr h1.le)
          have hn2 : ¬ (weightedScore weights Action.sell signals
              > weightedScore weights Action.buy signals
              ∧ weightedScore weights Action.sell signals
                > weightedScore weights Action.hold signals) :=
            fun hc => absurd hc.2 (not_lt.mpr h2.le)
          unfold argmaxAction
          rw [if_neg hn1, if_neg hn2]
    have hthr' : weightedScore weights (argmaxAction weights signals) signals
        > θ * totalScore weights signals := by
      rw [hwin]
      exact hthr
    show (aggregate weights θ mc signals).action = a
    simp only [aggregate]
    rw [if_pos hthr']
    exact hwin
  · intro hne
    by_cases hthr :
        weightedScore weights (argmaxAction weights signals) signals
          > θ * totalScore weights signals
    · have hact : (aggregate weights θ mc signals).action
          = argmaxAction weights signals := by
        simp [aggregate, hthr]
      rw [hact] at hne ⊢
      refine ⟨?_, ?_⟩
      · intro a ha
        unfold argmaxAction at hne ha ⊢
        split_ifs at hne ha ⊢ with h1 h2
        · cases a <;> simp_all
        · cases a <;> simp_all
        · simp at hne
      · exact hthr
    · exfalso
      apply hne
      simp [aggregate, hthr]
  · intro hbs
    have hwinner : argmaxAction weights signals = Action.hold := by
      unfold argmaxAction
      split_ifs with h1 h2
      · exfalso; rw [hbs] at h1; exact lt_irrefl _ h1.1
      · exfalso; rw [hbs] at h2; exact lt_irrefl _ h2.1
      · rfl
    by_cases hthr :
        weightedScore weights (argmaxAction weights signals) signals
          > θ * totalScore weights signals
    · simp [aggregate, hthr, hwinner]
    · simp [aggregate, hthr]
  · intro hthr
    have hnl : ¬ (weightedScore weights (argmaxAction weights signals) signals
        > θ * totalScore weights signals) := not_lt.mpr hthr
    simp [aggregate, hnl]
  · by_cases h0 : totalScore weights signals = 0
    · simp [aggregate, h0]
    · have hpos : 0 < totalScore weights signals := lt_of_le_of_ne htot (Ne.symm h0)
      simp only [aggregate, h0, if_false]
      exact mul_nonneg (div_nonneg (hnonneg _) hpos.le) hpen0
  · by_cases h0 : totalScore weights signals = 0
    · simp [aggregate, h0]
    · have hpos : 0 < totalScore weights signals := lt_of_le_of_ne htot (Ne.symm h0)
      simp only [aggregate, h0, if_false]
      have hb1 : weightedScore weights (argmaxAction weights signals) signals
          / totalScore weights signals ≤ 1 := (div_le_one hpos).mpr (hle _)
      have hb0 : 0 ≤ weightedScore weights (argmaxAction weights signals) signals
          / totalScore weights signals := div_nonneg (hnonneg _) hpos.le
      nlinarith
  · intro h0
    simp [aggregate, h0]
  · intro h0 hc
    have hp : conflictPenalty mc (conflictingVotes weights signals) = 1 := by
      simp [conflictPenalty, hc]
    simp [aggregate, h0, hp]

/-- C1 counterexample: with the shipped conflict cap 2, three strategies
vote the minority action sell against a winning buy consensus, so the output
confidence is the proportionally penalized 40/69 and differs from the winning
class's normalized weighted score 20/23 — refuting the claim's unconditional
confidence clause. -/
theorem C1_confidence_counterexample :
    (aggregate cxWeights (3/5) 2 cxSignals).action = Action.buy
      ∧ totalScore cxWeights cxSignals ≠ 0
      ∧ (aggregate cxWeights (3/5) 2 cxSignals).confidence
          ≠ weightedScore cxWeights (argmaxAction cxWeights cxSignals) cxSignals
              / totalScore cxWeights cxSignals := by
  have hbuy : weightedScore cxWeights Action.buy cxSignals = 2/5 := by
    simp [weightedScore, cxSignals, cxWeights]
    norm_num
  have hsell : weightedScore cxWeights Action.sell cxSignals = 3/50 := by
    simp [weightedScore, cxSignals, cxWeights]
    norm_num
  have hhold : weightedScore cxWeights Action.hold cxSignals = 0 := by
    simp [weightedScore, cxSignals, cxWeights]
  have hvotes : voteCount Action.sell cxSignals = 3 := by
    simp [voteCount, cxSignals]
  have hargmax : argmaxAction cxWeights cxSignals = Action.buy := by
    unfold argmaxAction
    rw [hbuy, hsell, hhold]
    norm_num
  have htotal : totalScore cxWeights cxSignals = 23/50 := by
    rw [totalScore, hbuy, hsell, hhold]
    norm_num
  have hcv : conflictingVotes cxWeights cxSignals = 3 := by
    rw [conflictingVotes, hargmax]
    exact hvotes
  have hpen : conflictPenalty 2 (conflictingVotes cxWeights cxSignals) = 2/3 := by
    rw [hcv]
    norm_num [conflictPenalty]
  refine ⟨?_, ?_, ?_⟩
  · simp only [aggregate, hargmax, hbuy, htotal]
    norm_num
  · rw [htotal]
    norm_num
  · simp only [aggregate, hargmax, hbuy, htotal, hpen]
    norm_num

theorem C1_signal_aggregator_amended_witness :
    (∀ s ∈ demoSignals, 0 ≤ demoWeights s.strategy_id)
      ∧ (∀ s ∈ demoSignals, 0 ≤ s.strength)
      ∧ (aggregate demoWeights (3/5) 2 demoSignals).action = Action.buy
      ∧ 0 ≤ (aggregate demoWeights (3/5) 2 demoSignals).confidence
      ∧ (aggregate demoWeights (3/5) 2 demoSignals).confidence ≤ 1 := by
  have h1 : ∀ s ∈ demoSignals, 0 ≤ demoWeights s.strategy_id := by
    intro s _
    unfold demoWeights
    split_ifs <;> norm_num
  have h2 : ∀ s ∈ demoSignals, 0 ≤ s.strength := by
    intro s hs
    fin_cases hs <;> norm_num
  have main := C1_signal_aggregator_amended demoWeights (3/5) 2 demoSignals h1 h2
  have hstrict : ∀ b, b ≠ Action.buy →
      weightedScore demoWeights b demoSignals
        < weightedScore demoWeights Action.buy demoSignals := by
    intro b hb
    cases b with
    | buy => exact absurd rfl hb
    | sell =>
        simp [weightedScore, demoSignals, demoWeights]
        norm_num
    | hold =>
        simp [weightedScore, demoSignals, demoWeights]
        norm_num
  have hthr : (3/5 : ℚ) * totalScore demoWeights demoSignals
      < weightedScore demoWeights Action.buy demoSignals := by
    simp [weightedScore, totalScore, demoSignals, demoWeights]
    norm_num
  exact ⟨h1, h2, main.1 Action.buy hstrict hthr,
    main.2.2.2.2.1, main.2.2.2.2.2.1⟩

/-- C2: a ConsolidatedSignal whose confidence is below the configured
`min_signal_strength` is filtered out at the aggregation boundary, so
RiskGate.authorize is never invoked on it: the cycle's risk decision for such
a signal is `none`. -/
theorem C2_min_signal_strength_filter (minStrength : ℚ) (cfg : RiskConfig)
    (st : RiskState) (c : ConsolidatedSignal)
    (h : c.confidence < minStrength) :
    forwardToRiskGate minStrength c = none
      ∧ cycleRiskDecision minStrength cfg st c = none := by
  constructor
  · simp [forwardToRiskGate, h]
  · simp [cycleRiskDecision, forwardToRiskGate, h]

theorem C2_min_signal_strength_filter_witness :
    demoWeakSignal.confidence < 7/10
      ∧ cycleRiskDecision (7/10) demoConfig demoBreachedState demoWeakSignal
          = none := by
  have h : demoWeakSignal.confidence < 7/10 := by norm_num [demoWeakSignal]
  exact ⟨h,
    (C2_min_signal_strength_filter (7/10) demoConfig demoBreachedState
      demoWeakSignal h).2⟩

theorem authorize_breach (cfg : RiskConfig) (st : RiskState)
    (hen : cfg.system_enabled = true) (htr : cfg.trading_enabled = true)
    (hbr : st.daily_loss ≤ cfg.daily_loss_limit) (sig : ConsolidatedSignal) :
    authorize cfg st sig = AuthResult.rejected RejectReason.DailyLossLimitReached := by
  simp [authorize, hen, htr, hbr]

/-- C3: once the daily loss accumulator has breached `daily_loss_limit`,
RiskGate.authorize rejects every ConsolidatedSignal with
`DailyLossLimitReached`, and it keeps rejecting after any sequence of
further same-day authorization steps (no daily reset in between). -/
theorem C3_daily_loss_limit (cfg : RiskConfig) (st : RiskState)
    (hen : cfg.system_enabled = true) (htr : cfg.trading_enabled = true)
    (hbr : st.daily_loss ≤ cfg.daily_loss_limit) :
    (∀ sig, authorize cfg st sig
        = AuthResult.rejected RejectReason.DailyLossLimitReached)
      ∧ ∀ evs : List (ConsolidatedSignal × ℚ), ∀ sig,
          authorize cfg (evs.foldl (dayStep cfg) st) sig
            = AuthResult.rejected RejectReason.DailyLossLimitReached := by
  refine ⟨authorize_breach cfg st hen htr hbr, ?_⟩
  intro evs
  induction evs generalizing st with
  | nil => exact fun sig => authorize_breach cfg st hen htr hbr sig
  | cons e rest ih =>
      intro sig
      have hrej := authorize_breach cfg st hen htr hbr e.1
      have hstep : dayStep cfg st e = st := by
        simp [dayStep, hrej]
      rw [List.foldl_cons, hstep]
      exact ih st hbr sig

theorem C3_daily_loss_limit_witness :
    demoConfig.system_enabled = true
      ∧ demoConfig.trading_enabled = true
      ∧ demoBreachedState.daily_loss ≤ demoConfig.daily_loss_limit
      ∧ authorize demoConfig demoBreachedState demoWeakSignal
          = AuthResult.rejected RejectReason.DailyLossLimitReached
      ∧ authorize demoConfig
            (([(demoWeakSignal, (0:ℚ)), (⟨Action.sell, 1⟩, -100)]).foldl
              (dayStep demoConfig) demoBreachedState) demoWeakSignal
          = AuthResult.rejected RejectReason.DailyLossLimitReached := by
  have hbr : demoBreachedState.daily_loss ≤ demoConfig.daily_loss_limit := by
    norm_num [demoBreachedState, demoConfig]
  refine ⟨rfl, rfl, hbr, ?_, ?_⟩
  · exact (C3_daily_loss_limit demoConfig demoBreachedState rfl rfl hbr).1
      demoWeakSignal
  · exact (C3_daily_loss_limit demoConfig demoBreachedState rfl rfl hbr).2
      [(demoWeakSignal, 0), (⟨Action.sell, 1⟩, -100)] demoWeakSignal

/-- C4: the position size computed by the quarter-Kelly, volatility-adjusted
formula always lies within the closed interval
[min_trade_amount, 10% × account_balance] — for every input for which that
interval is well formed, i.e. min_trade_amount does not exceed the cap. -/
theorem C4_position_size_bounds (st : RiskState) (m : ℚ)
    (h : m ≤ st.account_balance * (10/100)) :
    m ≤ calculate_position_size st m
      ∧ calculate_position_size st m ≤ st.account_balance * (10/100) := by
  unfold calculate_position_size
  exact ⟨le_max_right _ _, max_le (min_le_right _ _) h⟩

theorem C4_position_size_bounds_witness :
    (5000:ℚ) ≤ demoBreachedState.account_balance * (10/100)
      ∧ 5000 ≤ calculate_position_size demoBreachedState 5000
      ∧ calculate_position_size demoBreachedState 5000
          ≤ demoBreachedState.account_balance * (10/100) := by
  have h : (5000:ℚ) ≤ demoBreachedState.account_balance * (10/100) := by
    norm_num [demoBreachedState]
  exact ⟨h, (C4_position_size_bounds demoBreachedState 5000 h).1,
    (C4_position_size_bounds demoBreachedState 5000 h).2⟩

theorem excluded_persists (updates : List StratPerf) (s : StrategyDayState)
    (h : s.excluded = true) :
    (updates.foldl cycleUpdate s).excluded = true := by
  induction updates generalizing s with
  | nil => exact h
  | cons u rest ih =>
      rw [List.foldl_cons]
      exact ih _ (by simp [cycleUpdate, h])

/-- C5: a strategy whose stats breach an auto-disable condition (≥5
consecutive losses, trailing drawdown above 12%, or win rate below 35% over
≥30 trades) is excluded from SignalAggregator's weighting starting from the
next cycle, remains excluded across every further cycle of the day, and is
re-included by the daily reset; in particular exactly 5 consecutive losses
triggers the exclusion. -/
theorem C5_auto_disable_exclusion (e : Bool) (p q : StratPerf)
    (updates : List StratPerf) :
    (auto_disable_breach p = true
        ↔ (5 ≤ p.consecutive_losses ∨ (12/100 : ℚ) < p.drawdown
            ∨ (30 ≤ p.trades ∧ (p.wins : ℚ) / (p.trades : ℚ) < 35/100)))
      ∧ (auto_disable_breach p = true →
          (cycleUpdate ⟨e, p⟩ q).excluded = true
            ∧ (updates.foldl cycleUpdate (cycleUpdate ⟨e, p⟩ q)).excluded
                = true)
      ∧ (∀ r, (dailyReset r).excluded = false)
      ∧ (p.consecutive_losses = 5 → (cycleUpdate ⟨e, p⟩ q).excluded = true) := by
  refine ⟨?_, ?_, fun r => rfl, ?_⟩
  · simp [auto_disable_breach, or_assoc]
  · intro hbr
    have hex : (cycleUpdate ⟨e, p⟩ q).excluded = true := by
      simp [cycleUpdate, hbr]
    exact ⟨hex, excluded_persists updates _ hex⟩
  · intro h5
    have hbr : auto_disable_breach p = true := by
      simp [auto_disable_breach, h5]
    simp [cycleUpdate, hbr]

theorem C5_auto_disable_exclusion_witness :
    auto_disable_breach demoPerf = true
      ∧ (cycleUpdate ⟨false, demoPerf⟩ demoPerf).excluded = true
      ∧ ([demoPerf, demoPerf].foldl cycleUpdate
            (cycleUpdate ⟨false, demoPerf⟩ demoPerf)).excluded = true
      ∧ (dailyReset demoPerf).excluded = false := by
  have hbr : auto_disable_breach demoPerf = true := by decide
  have main :=
    C5_auto_disable_exclusion false demoPerf demoPerf [demoPerf, demoPerf]
  exact ⟨hbr, (main.2.1 hbr).1, (main.2.1 hbr).2, main.2.2.1 demoPerf⟩

/-- C6: the EMA-cross evaluator returns a buy Signal with positive strength
exactly when the fast EMA is above the slow EMA, price is above the filter
EMA and volume exceeds 1.5× its 10-period average; symmetrically for sell;
and when the fast EMA equals the slow EMA it returns hold with strength 0.
The emitted signal always carries strategy id "h1". -/
theorem C6_ema_cross_evaluator (i : EmaCrossInput) (hpos : 0 < i.slow_ema) :
    (((ema_cross_evaluate i).action = Action.buy
        ∧ 0 < (ema_cross_evaluate i).strength)
      ↔ (i.fast_ema > i.slow_ema ∧ i.price > i.filter_ema
          ∧ i.volume > (3/2) * i.avg_volume_10))
    ∧ (((ema_cross_evaluate i).action = Action.sell
        ∧ 0 < (ema_cross_evaluate i).strength)
      ↔ (i.fast_ema < i.slow_ema ∧ i.price < i.filter_ema
          ∧ i.volume > (3/2) * i.avg_volume_10))
    ∧ (i.fast_ema = i.slow_ema →
        (ema_cross_evaluate i).action = Action.hold
          ∧ (ema_cross_evaluate i).strength = 0)
    ∧ (ema_cross_evaluate i).strategy_id = "h1" := by
  unfold ema_cross_evaluate
  split_ifs with hb hs
  · have hstr : 0 < min 1 ((i.fast_ema - i.slow_ema) / i.slow_ema) :=
      lt_min one_pos (div_pos (sub_pos.mpr hb.1) hpos)
    refine ⟨?_, ?_, ?_, rfl⟩
    · simpa [hstr] using hb
    · simp only [iff_def]
      constructor
      · rintro ⟨h, -⟩; exact absurd h (by simp)
      · rintro ⟨h, -⟩; exact absurd hb.1 (not_lt.mpr h.le)
    · intro heq; exact absurd hb.1 (by rw [heq]; exact lt_irrefl _)
  · have hstr : 0 < min 1 ((i.slow_ema - i.fast_ema) / i.slow_ema) :=
      lt_min one_pos (div_pos (sub_pos.mpr hs.1) hpos)
    refine ⟨?_, ?_, ?_, rfl⟩
    · simp only [iff_def]
      constructor
      · rintro ⟨h, -⟩; exact absurd h (by simp)
      · intro h; exact absurd h hb
    · simpa [hstr] using hs
    · intro heq; exact absurd hs.1 (by rw [heq]; exact lt_irrefl _)
  · refine ⟨?_, ?_, fun _ => ⟨rfl, rfl⟩, rfl⟩
    · simp only [iff_def]
      constructor
      · rintro ⟨-, h⟩; exact absurd h (lt_irrefl 0)
      · intro h; exact absurd h hb
    · simp only [iff_def]
      constructor
      · rintro ⟨-, h⟩; exact absurd h (lt_irrefl 0)
      · intro h; exact absurd h hs

theorem C6_ema_cross_evaluator_witness :
    (0:ℚ) < demoEmaInput.slow_ema
      ∧ ((ema_cross_evaluate demoEmaInput).action = Action.buy
          ∧ 0 < (ema_cross_evaluate demoEmaInput).strength) := by
  have hpos : (0:ℚ) < demoEmaInput.slow_ema := by norm_num [demoEmaInput]
  refine ⟨hpos, ?_⟩
  exact (C6_ema_cross_evaluator demoEmaInput hpos).1.mpr
    (by norm_num [demoEmaInput])

/-- C7: the ADX-regime-meta strategy (d8) selects the eligible strategy
subset purely from the current ADX value — above 30 trend strategies only,
below 20 mean-reversion strategies only, intermediate values momentum
strategies — it never puts itself (no trade signal of its own) into the
selection, and the aggregation over a selection ignores every signal from an
unselected strategy. -/
theorem C7_adx_regime_selection (adx : ℚ) :
    (adx > 30 →
        select_strategy_by_market adx = ["golden_cross", "ema_cross", "ichimoku"])
      ∧ (adx < 20 →
          select_strategy_by_market adx
            = ["bollinger_bands", "pivot_points", "rsi_oversold"])
      ∧ (20 ≤ adx → adx ≤ 30 →
          select_strategy_by_market adx = ["macd", "vwap", "flag_pattern"])
      ∧ (∀ a : ℚ, "adx_trend_filter" ∉ select_strategy_by_market a
          ∧ "d8" ∉ select_strategy_by_market a)
      ∧ (∀ (sel : List String) (weights : String → ℚ) (θ : ℚ) (mc : ℕ)
            (sig : Signal) (signals : List Signal),
          sel.contains sig.strategy_id = false →
            aggregateWithSelection sel weights θ mc (sig :: signals)
              = aggregateWithSelection sel weights θ mc signals) := by
  refine ⟨?_, ?_, ?_, ?_, ?_⟩
  · intro h
    simp [select_strategy_by_market, h]
  · intro h
    have h30 : ¬ adx > 30 := by linarith
    simp [select_strategy_by_market, h30, h]
  · intro h20 h30
    have h30' : ¬ adx > 30 := not_lt.mpr h30
    have h20' : ¬ adx < 20 := not_lt.mpr h20
    simp [select_strategy_by_market, h30', h20']
  · intro a
    unfold select_strategy_by_market
    split_ifs <;> simp
  · intro sel weights θ mc sig signals h
    have h' : sig.strategy_id ∉ sel := by simpa using h
    simp [aggregateWithSelection, List.filter_cons, h']

theorem C7_adx_regime_selection_witness :
    select_strategy_by_market 35 = ["golden_cross", "ema_cross", "ichimoku"]
      ∧ select_strategy_by_market 15
          = ["bollinger_bands", "pivot_points", "rsi_oversold"]
      ∧ select_strategy_by_market 25 = ["macd", "vwap", "flag_pattern"]
      ∧ "d8" ∉ select_strategy_by_market 25 := by
  refine ⟨?_, ?_, ?_, ?_⟩
  · exact (C7_adx_regime_selection 35).1 (by norm_num)
  · exact (C7_adx_regime_selection 15).2.1 (by norm_num)
  · exact (C7_adx_regime_selection 25).2.2.1 (by norm_num) (by norm_num)
  · exact ((C7_adx_regime_selection 25).2.2.2.1 25).2

/-- C8 counterexample: with the shipped parameters the stop is NOT
monotonically non-decreasing across successive re-evaluations after
activation.  Entry 1000; at price 1004 trailing is active and the stop is
1001.992; the price then pulls back to 1002 — still above the stop, so the
position is not closed — and `update_stop` falls back to the fixed initial
stop 995, strictly below the previous stop. -/
theorem C8_trailing_stop_counterexample :
    (1004:ℚ) > 1000 * (1 + defaultStopParams.trailing_start)
      ∧ update_stop defaultStopParams 1000 1004 1004 = 1001992/1000
      ∧ (1002:ℚ) > update_stop defaultStopParams 1000 1004 1004
      ∧ update_stop defaultStopParams 1000 1002 1004
          < update_stop defaultStopParams 1000 1004 1004 := by
  norm_num [update_stop, defaultStopParams]

/-- C8 amended: the trailing stop activates only once the price exceeds the
entry by the activation threshold — at or below it the stop is the fixed
initial level — and across successive re-evaluations the stop is monotonically
non-decreasing as long as the price stays above the activation threshold (the
running highest price being non-decreasing); when the price falls back to the
threshold or below, the stop reverts to the fixed initial level, which can be
lower. -/
theorem C8_trailing_stop_amended (c : AdvancedStopLoss)
    (entry cur cur' hi hi' : ℚ) (hdist : c.trailing_distance ≤ 1) :
    (cur ≤ entry * (1 + c.trailing_start) →
        update_stop c entry cur hi = entry * (1 - c.initial_stop))
      ∧ (cur > entry * (1 + c.trailing_start) →
          cur' > entry * (1 + c.trailing_start) →
          hi ≤ hi' →
          update_stop c entry cur hi ≤ update_stop c entry cur' hi') := by
  constructor
  · intro h
    simp [update_stop, not_lt.mpr h]
  · intro h h' hhi
    simp only [update_stop, if_pos h, if_pos h']
    have hd : (0:ℚ) ≤ 1 - c.trailing_distance := by linarith
    exact mul_le_mul_of_nonneg_right hhi hd

theorem C8_trailing_stop_amended_witness :
    defaultStopParams.trailing_distance ≤ 1
      ∧ (1004:ℚ) > 1000 * (1 + defaultStopParams.trailing_start)
      ∧ (1005:ℚ) > 1000 * (1 + defaultStopParams.trailing_start)
      ∧ update_stop defaultStopParams 1000 1004 1004
          ≤ update_stop defaultStopParams 1000 1005 1005 := by
  have hd : defaultStopParams.trailing_distance ≤ 1 := by
    norm_num [defaultStopParams]
  have h1 : (1004:ℚ) > 1000 * (1 + defaultStopParams.trailing_start) := by
    norm_num [defaultStopParams]
  have h2 : (1005:ℚ) > 1000 * (1 + defaultStopParams.trailing_start) := by
    norm_num [defaultStopParams]
  exact ⟨hd, h1, h2,
    (C8_trailing_stop_amended defaultStopParams 1000 1004 1005 1004 1005 hd).2
      h1 h2 (by norm_num)⟩

/-- C9: scaled profit taking on a fresh position — nothing fires below 1.5R;
30% of the position exits at 1.5R, a further 30% at 2.5R, and the remaining
40% at 4.0R; each fired level creates exactly one Trade record and reduces
the position's quantity by the exited amount; the position closes fully
exactly when its quantity reaches zero, which happens exactly at the 4.0R
exit. -/
theorem C9_scaled_profit_taking (q r : ℚ) (hq : 0 < q) :
    (r < 3/2 →
        (takeScaledExits (freshPosition q) r).2 = []
          ∧ (takeScaledExits (freshPosition q) r).1.quantity = q
          ∧ (takeScaledExits (freshPosition q) r).1.is_open = true)
      ∧ (3/2 ≤ r → r < 5/2 →
          (takeScaledExits (freshPosition q) r).2 = [⟨(30/100) * q, 3/2⟩]
            ∧ (takeScaledExits (freshPosition q) r).1.quantity = (70/100) * q
            ∧ (takeScaledExits (freshPosition q) r).1.is_open = true)
      ∧ (5/2 ≤ r → r < 4 →
          (takeScaledExits (freshPosition q) r).2
              = [⟨(30/100) * q, 3/2⟩, ⟨(30/100) * q, 5/2⟩]
            ∧ (takeScaledExits (freshPosition q) r).1.quantity = (40/100) * q
            ∧ (takeScaledExits (freshPosition q) r).1.is_open = true)
      ∧ (4 ≤ r →
          (takeScaledExits (freshPosition q) r).2
              = [⟨(30/100) * q, 3/2⟩, ⟨(30/100) * q, 5/2⟩, ⟨(40/100) * q, 4⟩]
            ∧ (takeScaledExits (freshPosition q) r).1.quantity = 0
            ∧ (takeScaledExits (freshPosition q) r).1.is_open = false)
      ∧ (takeScaledExits (freshPosition q) r).1.quantity
          = q - ((takeScaledExits (freshPosition q) r).2.map
              Trade.exit_quantity).sum
      ∧ ((takeScaledExits (freshPosition q) r).1.is_open = false
          ↔ (takeScaledExits (freshPosition q) r).1.quantity = 0) := by
  refine ⟨?_, ?_, ?_, ?_, ?_, ?_⟩
  · intro h1
    have n1 : ¬ ((3:ℚ)/2 ≤ r) := not_le.mpr h1
    simp [takeScaledExits, SCALED_EXITS, freshPosition, List.takeWhile_cons,
      n1, hq.ne']
  · intro h1 h2
    have n2 : ¬ ((5:ℚ)/2 ≤ r) := not_le.mpr h2
    have hne : q - 30/100 * q ≠ 0 := by
      intro h0
      nlinarith
    refine ⟨?_, ?_, ?_⟩
    · simp [takeScaledExits, SCALED_EXITS, freshPosition, List.takeWhile_cons,
        h1, n2]
    · simp only [takeScaledExits, SCALED_EXITS, freshPosition]
      simp [List.takeWhile_cons, h1, n2]
      ring
    · simp [takeScaledExits, SCALED_EXITS, freshPosition, List.takeWhile_cons,
        h1, n2, hne]
  · intro h2 h3
    have h1 : (3:ℚ)/2 ≤ r := by linarith
    have n3 : ¬ ((4:ℚ) ≤ r) := not_le.mpr h3
    have hne : q - (30/100 * q + 30/100 * q) ≠ 0 := by
      intro h0
      nlinarith
    refine ⟨?_, ?_, ?_⟩
    · simp [takeScaledExits, SCALED_EXITS, freshPosition, List.takeWhile_cons,
        h1, h2, n3]
    · simp only [takeScaledExits, SCALED_EXITS, freshPosition]
      simp [List.takeWhile_cons, h1, h2, n3]
      ring
    · simp [takeScaledExits, SCALED_EXITS, freshPosition, List.takeWhile_cons,
        h1, h2, n3, hne]
  · intro h3
    have h1 : (3:ℚ)/2 ≤ r := by linarith
    have h2 : (5:ℚ)/2 ≤ r := by linarith
    have hz : q - (30/100 * q + (30/100 * q + 40/100 * q)) = 0 := by ring
    refine ⟨?_, ?_, ?_⟩
    · simp [takeScaledExits, SCALED_EXITS, freshPosition, List.takeWhile_cons,
        h1, h2, h3]
    · simp only [takeScaledExits, SCALED_EXITS, freshPosition]
      simp [List.takeWhile_cons, h1, h2, h3]
      ring
    · simp [takeScaledExits, SCALED_EXITS, freshPosition, List.takeWhile_cons,
        h1, h2, h3, hz]
  · simp [takeScaledExits, freshPosition]
  · simp [takeScaledExits, freshPosition, sub_eq_zero]

theorem C9_scaled_profit_taking_witness :
    (0:ℚ) < 10
      ∧ (takeScaledExits (freshPosition 10) 4).2
          = [⟨3, 3/2⟩, ⟨3, 5/2⟩, ⟨4, 4⟩]
      ∧ (takeScaledExits (freshPosition 10) 4).1.quantity = 0
      ∧ (takeScaledExits (freshPosition 10) 4).1.is_open = false := by
  have hq : (0:ℚ) < 10 := by norm_num
  have main := (C9_scaled_profit_taking 10 4 hq).2.2.2.1 le_rfl
  refine ⟨hq, ?_, main.2.1, main.2.2⟩
  have h := main.1
  norm_num at h ⊢
  exact h

theorem nextCycleTime_spec (now p : ℤ) (hp : 0 < p) (t : ℤ) :
    now < nextCycleTime now p t
      ∧ ∃ k : ℕ, nextCycleTime now p t = t + (k : ℤ) * p
          ∧ ∀ j : ℕ, j < k → t + (j : ℤ) * p ≤ now := by
  generalize hn : (now + p - t).toNat = n
  induction n using Nat.strong_induction_on generalizing t with
  | _ n ih =>
      rw [nextCycleTime]
      split_ifs with h
      · obtain ⟨hp', hle⟩ := h
        have hlt : (now + p - (t + p)).toNat < n := by omega
        obtain ⟨hgt, k', hk', hmin⟩ := ih _ hlt (t + p) rfl
        refine ⟨hgt, k' + 1, ?_, ?_⟩
        · rw [hk']
          push_cast
          ring
        · intro j hj
          cases j with
          | zero => simpa using hle
          | succ j' =>
              have hj' : j' < k' := by omega
              have hstep := hmin j' hj'
              calc t + ((j' + 1 : ℕ) : ℤ) * p = (t + p) + (j' : ℤ) * p := by
                    push_cast
                    ring
                _ ≤ now := hstep
      · have hgt : now < t := by
          rcases not_and_or.mp h with h1 | h2
          · exact absurd hp h1
          · exact lt_of_not_le h2
        exact ⟨hgt, 0, by simp, by omega⟩

/-- C10: for every trade interval m > 0 minutes, `calculateNextTradeTime`
returns a time strictly later than `now`; it returns the server-provided
next-execution time unchanged when that time lies in the future; with no
stored last execution (and no usable server time) it returns `now` plus one
interval; and with a stored last execution it returns the smallest time of
the form `lastExec + k·m·60000` with integer k ≥ 1 that exceeds `now`. -/
theorem C10_next_trade_time (serverNext lastExec : Option ℤ) (now m : ℤ)
    (hm : 0 < m) :
    now < calculateNextTradeTime serverNext lastExec now m
      ∧ (∀ t, serverNext = some t → now < t →
          calculateNextTradeTime serverNext lastExec now m = t)
      ∧ ((serverNext = none ∨ ∃ t, serverNext = some t ∧ t ≤ now) →
          lastExec = none →
          calculateNextTradeTime serverNext lastExec now m = now + m * 60000)
      ∧ ((serverNext = none ∨ ∃ t, serverNext = some t ∧ t ≤ now) →
          ∀ l, lastExec = some l →
            ∃ k : ℕ, 1 ≤ k
              ∧ calculateNextTradeTime serverNext lastExec now m
                  = l + (k : ℤ) * (m * 60000)
              ∧ now < l + (k : ℤ) * (m * 60000)
              ∧ ∀ j : ℕ, 1 ≤ j → j < k → l + (j : ℤ) * (m * 60000) ≤ now) := by
  have hp : 0 < m * 60000 := by positivity
  have hfb : ∀ le, now < fallbackNextTime le now m := by
    intro le
    cases le with
    | none => simp [fallbackNextTime]; omega
    | some l => exact (nextCycleTime_spec now (m * 60000) hp (l + m * 60000)).1
  have hserver :
      (serverNext = none ∨ ∃ t, serverNext = some t ∧ t ≤ now) →
        calculateNextTradeTime serverNext lastExec now m
          = fallbackNextTime lastExec now m := by
    rintro (h | ⟨t, ht, hle⟩)
    · simp [calculateNextTradeTime, h]
    · simp [calculateNextTradeTime, ht, not_lt.mpr hle]
  refine ⟨?_, ?_, ?_, ?_⟩
  · cases serverNext with
    | none => exact hfb lastExec
    | some t =>
        by_cases ht : now < t
        · simp [calculateNextTradeTime, ht]
        · simpa [calculateNextTradeTime, ht] using hfb lastExec
  · intro t ht hlt
    simp [calculateNextTradeTime, ht, hlt]
  · intro hs hnone
    rw [hserver hs, hnone]
    simp [fallbackNextTime]
  · intro hs l hl
    rw [hserver hs, hl]
    obtain ⟨k', hk', hmin⟩ :=
      (nextCycleTime_spec now (m * 60000) hp (l + m * 60000)).2
    refine ⟨k' + 1, by omega, ?_, ?_, ?_⟩
    · simp only [fallbackNextTime]
      rw [hk']
      push_cast
      ring
    · have hlt := (nextCycleTime_spec now (m * 60000) hp (l + m * 60000)).1
      have heq : nextCycleTime now (m * 60000) (l + m * 60000)
          = l + ((k' + 1 : ℕ) : ℤ) * (m * 60000) := by
        rw [hk']
        push_cast
        ring
      rw [heq] at hlt
      exact hlt
    · intro j hj1 hjk
      have hj' : j - 1 < k' := by omega
      have hstep := hmin (j - 1) hj'
      have hcast : l + (j : ℤ) * (m * 60000)
          = (l + m * 60000) + ((j - 1 : ℕ) : ℤ) * (m * 60000) := by
        have : ((j - 1 : ℕ) : ℤ) = (j : ℤ) - 1 := by omega
        rw [this]
        ring
      rw [hcast]
      exact hstep

theorem C10_next_trade_time_witness :
    (0:ℤ) < 10
      ∧ calculateNextTradeTime (some 100) none 0 10 = 100
      ∧ 0 < calculateNextTradeTime none (some (-300000)) 0 10 := by
  refine ⟨by norm_num, ?_, ?_⟩
  · exact (C10_next_trade_time (some 100) none 0 10 (by norm_num)).2.1 100 rfl
      (by norm_num)
  · exact (C10_next_trade_time none (some (-300000)) 0 10 (by norm_num)).1

end BitAuto
